import Mathlib

/-!
# Strata capability authorization plane — shallow embedding

This file embeds the core of the StrataOS repository (Go) in Lean 4:

* `internal/policy/authorize.go` — the central `Authorize` decision function;
* `internal/policy/constraints.go` — `enforcePathPrefix`, `parseRate`,
  `enforceRateLimit` (token bucket, modelled with explicit state passing and
  rational numbers in place of `float64` / `time.Time`);
* `internal/auth` (token codec) — PASETO `v2.public` `Sign` / `Verify`,
  with the Ed25519 primitive and the JSON codec (both from the Go standard
  library, outside this repository) abstracted as parameters;
* `cmd/fs/main.go` — the FS service handle table and the `fs.open`,
  `fs.read`, `fs.list`, `fs.revoke` handlers, with OS file operations
  modelled as effects.

Go strings are Lean `String`s (or `List Char` in the codec, where character
level reasoning is needed); bytes are `Fin 256`; wall-clock instants and
`float64` quantities are `ℚ`; Go maps are association lists.
-/

namespace Strata

/-! ## Go string helpers (`strings` package subset) -/

/-- `strings.HasPrefix` on character lists. -/
def listHasPrefix : List Char → List Char → Bool
  | [], _ => true
  | _ :: _, [] => false
  | p :: ps, c :: cs => p = c && listHasPrefix ps cs

/-- `strings.Contains` (substring containment) on character lists:
some suffix of the haystack starts with the needle. -/
def listContainsSub (needle : List Char) : List Char → Bool
  | [] => listHasPrefix needle []
  | c :: cs => listHasPrefix needle (c :: cs) || listContainsSub needle cs

/-- `strings.Contains(hay, needle)`. -/
def goContains (hay needle : String) : Bool :=
  listContainsSub needle.toList hay.toList

/-- `strings.HasPrefix(s, p)`. -/
def goHasPrefix (s p : String) : Bool :=
  listHasPrefix p.toList s.toList

/-- `strings.HasSuffix(s, p)` via reversal. -/
def goHasSuffix (s p : String) : Bool :=
  listHasPrefix p.toList.reverse s.toList.reverse

/-- ASCII whitespace recognised by `strings.TrimSpace` (the Unicode cases
do not occur in rate-limit strings). -/
def isSpaceChar (c : Char) : Bool :=
  c = ' ' || c = '\t' || c = '\n' || c = '\r' || c = '\x0b' || c = '\x0c'

/-- `strings.TrimSpace` on character lists. -/
def trimSpaceL (l : List Char) : List Char :=
  ((l.dropWhile isSpaceChar).reverse.dropWhile isSpaceChar).reverse

/-! ## Claims data model (`internal/capability`) -/

/-- `capability.Constraints`. -/
structure Constraints where
  pathPrefix : String
  rateLimit : String
deriving DecidableEq, Repr

/-- `capability.Capability` — the token claims. Timestamps are rationals
(seconds since the epoch). -/
structure Capability where
  id : String
  subject : String
  issuedAt : ℚ
  expiresAt : ℚ
  service : String
  actions : List String
  rights : List String
  constraints : Constraints
deriving DecidableEq, Repr

/-- `Capability.IsExpired`: `time.Now().After(ExpiresAt)`. -/
def Capability.isExpired (now : ℚ) (c : Capability) : Bool :=
  c.expiresAt < now

/-! ## Policy errors (`internal/policy/authorize.go`) -/

/-- `policy.PolicyError`. -/
structure PolicyError where
  code : Nat
  name : String
  message : String
deriving DecidableEq, Repr

def CodeUnauthenticated : Nat := 2
def CodePermissionDenied : Nat := 3
def CodeResourceExhausted : Nat := 7

/-! ## Method splitting

`strings.SplitN(method, ".", 2)` yields two pieces exactly when the method
contains a dot; `splitFirst` returns the text before and after the first dot. -/

def splitFirst (sep : Char) : List Char → Option (List Char × List Char)
  | [] => none
  | c :: rest =>
    if c = sep then some ([], rest)
    else
      match splitFirst sep rest with
      | none => none
      | some (a, b) => some (c :: a, b)

/-- Split a method string on the first `.` into `(service, action)`;
`none` when the method contains no dot (`len(parts) != 2` in Go). -/
def splitMethod (m : String) : Option (String × String) :=
  match splitFirst '.' m.toList with
  | none => none
  | some (a, b) => some (⟨a⟩, ⟨b⟩)

/-- `policy.hasRight`: linear scan for an exact match. -/
def hasRight (rights : List String) (required : String) : Bool :=
  rights.any (fun r => r = required)

/-- `policy.hasAction`: linear scan for an exact match. -/
def hasAction (actions : List String) (required : String) : Bool :=
  actions.any (fun a => a = required)

/-! ## `path/filepath` subset: `Clean`, `Abs` (Unix rules)

`filepath.Abs(p)` is `Clean(p)` for absolute `p` and `Clean(wd + "/" + p)`
otherwise; the working directory is passed explicitly. `Clean` is the
lexical algorithm: collapse separators, drop `.` elements, resolve `..`
against the preceding element, and drop `..` at the root. -/

/-- `strings.Split` on a single separator character (over `List Char`). -/
def splitOnChar (sep : Char) : List Char → List (List Char)
  | [] => [[]]
  | c :: rest =>
    let r := splitOnChar sep rest
    if c = sep then [] :: r
    else
      match r with
      | [] => [[c]]
      | g :: gs => (c :: g) :: gs

/-- Join path elements with `/`. -/
def joinSlash : List (List Char) → List Char
  | [] => []
  | [g] => g
  | g :: gs => g ++ '/' :: joinSlash gs

/-- One pass of `Clean`'s element processing: `stack` holds resolved
elements in reverse order. -/
def cleanStack (rooted : Bool) : List (List Char) → List (List Char) → List (List Char)
  | stack, [] => stack
  | stack, c :: rest =>
    if c = ['.', '.'] then
      match stack with
      | [] => cleanStack rooted (if rooted then [] else [['.', '.']]) rest
      | top :: t =>
        if top = ['.', '.'] then cleanStack rooted (['.', '.'] :: top :: t) rest
        else cleanStack rooted t rest
    else cleanStack rooted (c :: stack) rest

/-- `filepath.Clean` for Unix paths, over `List Char`. -/
def cleanL (p : List Char) : List Char :=
  if p = [] then ['.']
  else
    let rooted := listHasPrefix ['/'] p
    let comps := (splitOnChar '/' p).filter (fun c => !(c = [] || c = ['.']))
    let out := joinSlash (cleanStack rooted [] comps).reverse
    if rooted then '/' :: out
    else if out = [] then ['.'] else out

/-- `filepath.Clean` for Unix paths. -/
def clean (p : String) : String := ⟨cleanL p.toList⟩

/-- `filepath.Abs` with the process working directory `cwd` explicit. -/
def goAbs (cwd p : String) : String :=
  if goHasPrefix p "/" then clean p else clean (cwd ++ "/" ++ p)

/-! ## Path-prefix constraint (`internal/policy/constraints.go`) -/

/-- `policy.enforcePathPrefix`. The `ctx["path"]` entry is passed as a
plain string; a missing or non-string entry reads as `""` in Go. -/
def enforcePathPrefix (cwd pfx path : String) : Option PolicyError :=
  if pfx = "" then none
  else if path = "" then none
  else if goContains path ".." then
    some ⟨CodePermissionDenied, "PERMISSION_DENIED", "path traversal not allowed"⟩
  else
    let absPath := goAbs cwd path
    let absPrefix := goAbs cwd pfx
    if absPath ≠ absPrefix && !(goHasPrefix absPath (absPrefix ++ "/")) then
      some ⟨CodePermissionDenied, "PERMISSION_DENIED",
        "path " ++ absPath ++ " outside allowed prefix " ++ absPrefix⟩
    else none

/-! ## Rate parsing (`parseRate`)

`strconv.ParseFloat` is embedded for the decimal forms
`[sign] digits [. digits] [e|E [sign] digits]` over `ℚ`; the exotic Go
forms (hex floats, `Inf`, `NaN`) never yield a positive rate-limit string
in this system and are parsed as failures. -/

def isDigitChar (c : Char) : Bool := '0' ≤ c && c ≤ '9'

def digitsToNat (l : List Char) : Nat :=
  l.foldl (fun a c => 10 * a + (c.toNat - 48)) 0

def parseExpPart (base : ℚ) : List Char → Option ℚ
  | [] => some base
  | c :: rest =>
    if c = 'e' || c = 'E' then
      match rest with
      | '+' :: ds =>
        if ds ≠ [] && ds.all isDigitChar then some (base * 10 ^ (digitsToNat ds)) else none
      | '-' :: ds =>
        if ds ≠ [] && ds.all isDigitChar then some (base / 10 ^ (digitsToNat ds)) else none
      | ds =>
        if ds ≠ [] && ds.all isDigitChar then some (base * 10 ^ (digitsToNat ds)) else none
    else none

def parseFloatBody (s : List Char) : Option ℚ :=
  let ip := s.takeWhile isDigitChar
  let rest := s.dropWhile isDigitChar
  match rest with
  | '.' :: rest2 =>
    let fp := rest2.takeWhile isDigitChar
    let rest3 := rest2.dropWhile isDigitChar
    if ip = [] && fp = [] then none
    else parseExpPart ((digitsToNat ip : ℚ) + (digitsToNat fp : ℚ) / 10 ^ fp.length) rest3
  | _ =>
    if ip = [] then none else parseExpPart (digitsToNat ip : ℚ) rest

/-- `strconv.ParseFloat` (decimal subset), as an exact rational. -/
def parseFloat? (s : List Char) : Option ℚ :=
  match s with
  | '+' :: rest => parseFloatBody rest
  | '-' :: rest => (parseFloatBody rest).map (fun q => -q)
  | rest => parseFloatBody rest

/-- `policy.parseRate`: accept `<positive_number>rps`, else fail. -/
def parseRate (s : String) : Option ℚ :=
  let t := trimSpaceL s.toList
  if listHasPrefix ['s', 'p', 'r'] t.reverse then
    match parseFloat? (t.take (t.length - 3)) with
    | none => none
    | some n => if n ≤ 0 then none else some n
  else none

/-! ## Rate limiter (`enforceRateLimit`)

The Go limiter mutates a global `map[string]*bucket` under a mutex; here
the map is explicit state threaded through the call. `float64` token
counts and `time.Time` instants are rationals. -/

/-- `policy.bucket`. -/
structure Bucket where
  tokens : ℚ
  rate : ℚ
  last : ℚ
deriving DecidableEq, Repr

/-- The limiter's bucket map, as an association list keyed by `cap_id`. -/
structure LimiterState where
  buckets : List (String × Bucket)
deriving DecidableEq, Repr

def alookup {α : Type} : List (String × α) → String → Option α
  | [], _ => none
  | (k, v) :: rest, key => if k = key then some v else alookup rest key

def aupsert {α : Type} : List (String × α) → String → α → List (String × α)
  | [], key, v => [(key, v)]
  | (k, w) :: rest, key, v =>
    if k = key then (k, v) :: rest else (k, w) :: aupsert rest key v

/-- `policy.enforceRateLimit`, state-passing. A bucket is created on first
use with a full budget; refill adds `(now − last) × rate` capped at `rate`;
a call needs one whole token. -/
def enforceRateLimit (st : LimiterState) (now : ℚ) (capID rateLimit : String) :
    Option PolicyError × LimiterState :=
  if rateLimit = "" then (none, st)
  else
    match parseRate rateLimit with
    | none => (none, st)
    | some rate =>
      let b := match alookup st.buckets capID with
        | some b => b
        | none => ⟨rate, rate, now⟩
      let refilled := b.tokens + (now - b.last) * b.rate
      let capped := if refilled > b.rate then b.rate else refilled
      if capped < 1 then
        (some ⟨CodeResourceExhausted, "RESOURCE_EXHAUSTED", "rate limit exceeded"⟩,
         ⟨aupsert st.buckets capID ⟨capped, b.rate, now⟩⟩)
      else
        (none, ⟨aupsert st.buckets capID ⟨capped - 1, b.rate, now⟩⟩)

/-! ## The authorization decision function (`policy.Authorize`) -/

/-- `policy.enforceConstraints`: path prefix first, then rate limit. -/
def enforceConstraints (cwd : String) (now : ℚ) (st : LimiterState)
    (claims : Capability) (ctxPath : String) : Option PolicyError × LimiterState :=
  match enforcePathPrefix cwd claims.constraints.pathPrefix ctxPath with
  | some e => (some e, st)
  | none => enforceRateLimit st now claims.id claims.constraints.rateLimit

/-- `policy.Authorize`. `claims = none` is Go's nil pointer; `ctxPath` is
the `"path"` entry of the context map (`""` when absent). -/
def Authorize (cwd : String) (now : ℚ) (st : LimiterState)
    (claims : Option Capability) (method : String) (ctxPath : String) :
    Option PolicyError × LimiterState :=
  match claims with
  | none => (some ⟨CodeUnauthenticated, "UNAUTHENTICATED", "token required"⟩, st)
  | some c =>
    match splitMethod method with
    | none =>
      (some ⟨CodePermissionDenied, "PERMISSION_DENIED",
        "invalid method format: " ++ method⟩, st)
    | some (service, action) =>
      if c.service ≠ service then
        (some ⟨CodePermissionDenied, "PERMISSION_DENIED",
          "token not valid for service " ++ service⟩, st)
      else if !(hasRight c.rights method || hasAction c.actions action) then
        (some ⟨CodePermissionDenied, "PERMISSION_DENIED",
          "method " ++ method ++ " not permitted"⟩, st)
      else enforceConstraints cwd now st c ctxPath

/-! ## Token codec (`internal/auth`, `part_007`)

Bytes are `Fin 256`. The Go `encoding/base64` RawURL codec is embedded at
the bit level; note that Go's non-strict decoder silently ignores the
unused trailing bits of the final base64 character, which the embedding
reproduces. The Ed25519 primitive and the claims JSON codec live in the
Go standard library, outside this repository, and are abstracted as a
`SigScheme` parameter. -/

abbrev Byte := Fin 256

def b64AlphaList : List Char :=
  "ABCDEFGHIJKLMNOPQRSTUVWXYZabcdefghijklmnopqrstuvwxyz0123456789-_".toList

/-- base64url character for a 6-bit index. -/
def b64Char (i : Fin 64) : Char := b64AlphaList.getD i.val 'A'

/-- Index of a base64url character, `none` outside the alphabet. -/
def b64Index (c : Char) : Option (Fin 64) :=
  match b64AlphaList.findIdx? (fun a => a = c) with
  | none => none
  | some i => if h : i < 64 then some ⟨i, h⟩ else none

/-- Big-endian bit value of a bit list. -/
def natOfBits (l : List Bool) : Nat :=
  l.foldl (fun a bit => 2 * a + (if bit then 1 else 0)) 0

/-- The 8 bits of a byte, most significant first. -/
def byteToBits (b : Byte) : List Bool :=
  [b.val.testBit 7, b.val.testBit 6, b.val.testBit 5, b.val.testBit 4,
   b.val.testBit 3, b.val.testBit 2, b.val.testBit 1, b.val.testBit 0]

def byteOfBits (l : List Bool) : Byte :=
  ⟨natOfBits l % 256, Nat.mod_lt _ (by omega)⟩

/-- The 6 bits of a base64 index, most significant first. -/
def idxToBits (i : Fin 64) : List Bool :=
  [i.val.testBit 5, i.val.testBit 4, i.val.testBit 3,
   i.val.testBit 2, i.val.testBit 1, i.val.testBit 0]

/-- Pad a bit group on the right (low bits) to 6 bits. -/
def padTo6 (l : List Bool) : List Bool := l ++ List.replicate (6 - l.length) false

def idxOfBits (l : List Bool) : Fin 64 :=
  ⟨natOfBits (padTo6 l) % 64, Nat.mod_lt _ (by omega)⟩

/-- Fuel-driven worker for `groupsOf` (structural recursion so that the
kernel can evaluate it; the fuel is always at least the list length). -/
def groupsOfAux {α : Type} (k : Nat) : Nat → List α → List (List α)
  | _, [] => []
  | 0, _ :: _ => []
  | fuel + 1, a :: rest =>
    (a :: rest.take (k - 1)) :: groupsOfAux k fuel (rest.drop (k - 1))

/-- Split a list into consecutive groups of `k` elements; the final group
may be shorter. -/
def groupsOf {α : Type} (k : Nat) (l : List α) : List (List α) :=
  groupsOfAux k l.length l

/-- The fuel is irrelevant once it covers the list length. -/
lemma groupsOfAux_fuel {α : Type} (k : Nat) :
    ∀ (f1 : Nat), ∀ (f2 : Nat) (l : List α), l.length ≤ f1 → l.length ≤ f2 →
      groupsOfAux k f1 l = groupsOfAux k f2 l := by
  intro f1
  induction f1 with
  | zero =>
    intro f2 l h1 _
    match l, h1 with
    | [], _ =>
      cases f2 <;> rfl
  | succ f ih =>
    intro f2 l h1 h2
    match l with
    | [] => cases f2 <;> rfl
    | a :: rest =>
      match f2, h2 with
      | g + 1, h2 =>
        simp only [groupsOfAux]
        congr 1
        have hd : (rest.drop (k - 1)).length ≤ rest.length := by
          simp [List.length_drop]
        simp only [List.length_cons] at h1 h2
        exact ih g (rest.drop (k - 1)) (by omega) (by omega)

lemma groupsOf_nil {α : Type} (k : Nat) : groupsOf k ([] : List α) = [] := rfl

lemma groupsOf_cons {α : Type} (k : Nat) (a : α) (rest : List α) :
    groupsOf k (a :: rest) =
      (a :: rest.take (k - 1)) :: groupsOf k (rest.drop (k - 1)) := by
  show groupsOfAux k (rest.length + 1) (a :: rest) = _
  simp only [groupsOfAux]
  congr 1
  exact groupsOfAux_fuel k rest.length _ _
    (by simp [List.length_drop]) le_rfl

/-- `base64.RawURLEncoding.EncodeToString`. -/
def b64encode (bytes : List Byte) : List Char :=
  (groupsOf 6 ((bytes.map byteToBits).flatten)).map (fun g => b64Char (idxOfBits g))

/-- Option-valued map over a list, failing if any element fails
(the decode loop over input characters). -/
def mapMOpt {α β : Type} (f : α → Option β) : List α → Option (List β)
  | [] => some []
  | a :: t =>
    match f a with
    | none => none
    | some b =>
      match mapMOpt f t with
      | none => none
      | some bs => some (b :: bs)

/-- `base64.RawURLEncoding.DecodeString` (non-strict): reject characters
outside the alphabet and a leftover of one character; bits beyond the last
whole byte are dropped without inspection. -/
def b64decode (chars : List Char) : Option (List Byte) :=
  if chars.length % 4 = 1 then none
  else
    match mapMOpt b64Index chars with
    | none => none
    | some idxs =>
      some ((groupsOf 8 ((idxs.map idxToBits).flatten)).filterMap
        (fun g => if g.length = 8 then some (byteOfBits g) else none))

/-- 8-byte little-endian encoding (`binary.LittleEndian.PutUint64`). -/
def le8 (n : Nat) : List Byte :=
  (List.range 8).map (fun i => ⟨(n >>> (8 * i)) % 256, Nat.mod_lt _ (by omega)⟩)

/-- ASCII bytes of a string. -/
def strBytes (s : String) : List Byte :=
  s.toList.map (fun c => ⟨c.toNat % 256, Nat.mod_lt _ (by omega)⟩)

/-- `auth.pae` — PASETO Pre-Authentication Encoding. -/
def pae (pieces : List (List Byte)) : List Byte :=
  le8 pieces.length ++ (pieces.map (fun p => le8 p.length ++ p)).flatten

def headerStr : String := "v2.public."
def headerChars : List Char := headerStr.toList
def headerBytes : List Byte := strBytes headerStr

/-- Abstraction of the Go standard library pieces the codec calls:
`ed25519.Sign(sk, ·)` and `ed25519.Verify(pk, ·, ·)` for one fixed
keypair, and `json.Marshal` / `json.Unmarshal` for the claims record. -/
structure SigScheme where
  edSign : List Byte → List Byte
  edVerify : List Byte → List Byte → Bool
  serialize : Capability → List Byte
  deserialize : List Byte → Option Capability

/-- `auth.Sign`: token = `"v2.public." ++ b64url(claims_json ++ sig)` with
the signature taken over `pae[header, claims_json, ""]`. -/
def SignTok (S : SigScheme) (c : Capability) : List Char :=
  let message := S.serialize c
  let sig := S.edSign (pae [headerBytes, message, []])
  headerChars ++ b64encode (message ++ sig)

/-- `auth.Verify`. The error strings are the step-specific messages the Go
code wraps into its returned error. -/
def VerifyTok (S : SigScheme) (t : List Char) : Except String Capability :=
  if !(listHasPrefix headerChars t) then .error "invalid token header"
  else
    match b64decode (t.drop headerChars.length) with
    | none => .error "decode token: invalid input"
    | some decoded =>
      if decoded.length < 64 then .error "token too short"
      else
        let message := decoded.take (decoded.length - 64)
        let sig := decoded.drop (decoded.length - 64)
        if !(S.edVerify (pae [headerBytes, message, []]) sig) then
          .error "invalid signature"
        else
          match S.deserialize message with
          | none => .error "unmarshal capability: invalid input"
          | some c => .ok c

/-! ## FS service (`cmd/fs/main.go`)

The handle table and the four request handlers. Blocking OS calls are
modelled as an environment oracle plus an `Effect` trace recording every
touch of the underlying resource; a handler that denies emits no effect. -/

/-- One decimal digit character. -/
def digitChar (n : Nat) : Char :=
  match n with
  | 0 => '0' | 1 => '1' | 2 => '2' | 3 => '3' | 4 => '4'
  | 5 => '5' | 6 => '6' | 7 => '7' | 8 => '8' | _ => '9'

/-- Fuel-driven worker for `natDigits` (structural so the kernel can
evaluate it; the fuel is always at least the number itself). -/
def natDigitsAux : Nat → Nat → List Char
  | 0, n => [digitChar n]
  | fuel + 1, n =>
    if n < 10 then [digitChar n]
    else natDigitsAux fuel (n / 10) ++ [digitChar (n % 10)]

/-- Decimal digits of a natural number, as written by `fmt.Sprintf("%d")`. -/
def natDigits (n : Nat) : List Char := natDigitsAux n n

/-- The fuel is irrelevant once it covers the number. -/
lemma natDigitsAux_fuel :
    ∀ (f1 f2 n : Nat), n ≤ f1 → n ≤ f2 → natDigitsAux f1 n = natDigitsAux f2 n := by
  intro f1
  induction f1 with
  | zero =>
    intro f2 n h1 _
    have hn : n = 0 := by omega
    subst hn
    cases f2 with
    | zero => rfl
    | succ g => simp [natDigitsAux]
  | succ f ih =>
    intro f2 n h1 h2
    by_cases hn : n < 10
    · cases f2 with
      | zero =>
        have hn0 : n = 0 := by omega
        subst hn0
        simp [natDigitsAux]
      | succ g => simp [natDigitsAux, hn]
    · cases f2 with
      | zero => omega
      | succ g =>
        simp only [natDigitsAux, if_neg hn]
        have hd : n / 10 < n := Nat.div_lt_self (by omega) (by omega)
        rw [ih g (n / 10) (by omega) (by omega)]

lemma natDigits_eq (n : Nat) :
    natDigits n = if n < 10 then [digitChar n]
      else natDigits (n / 10) ++ [digitChar (n % 10)] := by
  show natDigitsAux n n = _
  by_cases hn : n < 10
  · cases n with
    | zero => simp [natDigitsAux]
    | succ m => simp [natDigitsAux, hn]
  · rw [if_neg hn]
    have h10 : 10 ≤ n := by omega
    match n, h10, hn with
    | m + 10, _, hn =>
      have hunf : natDigitsAux (m + 10) (m + 10)
          = if m + 10 < 10 then [digitChar (m + 10)]
            else natDigitsAux (m + 9) ((m + 10) / 10) ++ [digitChar ((m + 10) % 10)] := rfl
      rw [hunf, if_neg hn]
      congr 1
      exact natDigitsAux_fuel (m + 9) ((m + 10) / 10) ((m + 10) / 10)
        (by omega) le_rfl

/-- Handle identifier `fmt.Sprintf("h%d", n)`. -/
def hId (n : Nat) : String := ⟨'h' :: natDigits n⟩

/-- `handleEntry` — the open file is identified by its resolved path. -/
structure HandleEntry where
  capID : String
  path : String
deriving DecidableEq, Repr

/-- `handleTable`: handle map, replica revoked set, atomic counter. -/
structure HandleTable where
  handles : List (String × HandleEntry)
  revoked : List String
  nextID : Nat
deriving DecidableEq, Repr

def initTable : HandleTable := ⟨[], [], 0⟩

/-- The modulus of Go's `atomic.Uint64` counter: `nextID.Add(1)` wraps
back to `0` after `2^64 − 1`. -/
def u64Mod : Nat := 2 ^ 64

/-- `handleTable.Open` after a successful `os.Open`: bump the `uint64`
counter (wrapping at `2^64`), store the entry under the resulting id,
return the id. -/
def tableOpen (cwd : String) (t : HandleTable) (path capID : String) :
    String × HandleTable :=
  let id := hId ((t.nextID + 1) % u64Mod)
  (id, { t with nextID := (t.nextID + 1) % u64Mod,
                handles := aupsert t.handles id ⟨capID, goAbs cwd path⟩ })

/-- `handleTable.Revoke`. -/
def tableRevoke (t : HandleTable) (capID : String) : HandleTable :=
  { t with revoked := capID :: t.revoked }

/-- `handleTable.CloseAll`. -/
def tableCloseAll (t : HandleTable) : HandleTable := { t with handles := [] }

/-- IPC response, reduced to the fields the claims inspect. -/
structure Resp where
  ok : Bool
  code : Nat
  msg : String
deriving DecidableEq, Repr

def successResp : Resp := ⟨true, 0, ""⟩
def errorResp (code : Nat) (msg : String) : Resp := ⟨false, code, msg⟩

/-- A touch of the underlying OS resource. -/
inductive Effect
  | osOpen (path : String)
  | osReadDir (path : String)
  | readAt (path : String)
deriving DecidableEq, Repr

/-- Outcome of `os.Open` / `os.ReadDir`. -/
inductive OsResult
  | ok
  | notExist
  | fail
deriving DecidableEq, Repr

/-- Per-process environment of the FS service: the verifier closed over the
loaded public key, the clock, the working directory, and the OS oracles. -/
structure Env where
  verify : String → Except String Capability
  now : ℚ
  cwd : String
  osOpen : String → OsResult
  osReadDir : String → OsResult
  osRead : String → Bool

/-- FS service state: handle table plus the policy core's limiter map. -/
structure FsState where
  table : HandleTable
  limiter : LimiterState
deriving DecidableEq, Repr

/-- `extractClaims`: no token passes `none` through; an invalid or expired
token short-circuits with an `Unauthenticated` response. -/
def extractClaims (env : Env) (tok : Option String) :
    Except Resp (Option Capability) :=
  match tok with
  | none => .ok none
  | some t =>
    if t = "" then .ok none
    else
      match env.verify t with
      | .error e => .error (errorResp 2 ("invalid token: " ++ e))
      | .ok c =>
        if c.isExpired env.now then .error (errorResp 2 "token expired")
        else .ok (some c)

/-- The `fs.open` handler. -/
def fsOpen (env : Env) (st : FsState) (tok : Option String) (path : String) :
    Resp × List Effect × FsState :=
  match extractClaims env tok with
  | .error r => (r, [], st)
  | .ok claims =>
    if path = "" then (errorResp 1 "missing path param", [], st)
    else
      match claims with
      | none => (errorResp 2 "token required", [], st)
      | some c =>
        match Authorize env.cwd env.now st.limiter (some c) "fs.open" path with
        | (some e, lim') => (errorResp e.code e.message, [], { st with limiter := lim' })
        | (none, lim') =>
          let st1 : FsState := { st with limiter := lim' }
          if c.id ∈ st.table.revoked then
            (errorResp 3 "capability revoked", [], st1)
          else
            match env.osOpen path with
            | .notExist => (errorResp 4 "file not found", [Effect.osOpen path], st1)
            | .fail => (errorResp 5 "io error", [Effect.osOpen path], st1)
            | .ok =>
              let (_, t') := tableOpen env.cwd st1.table path c.id
              (successResp, [Effect.osOpen path], { st1 with table := t' })

/-- The `fs.read` handler. `ctx` is nil in Go, so the path context is `""`. -/
def fsRead (env : Env) (st : FsState) (tok : Option String) (handle : String) :
    Resp × List Effect × FsState :=
  match extractClaims env tok with
  | .error r => (r, [], st)
  | .ok claims =>
    match claims with
    | none => (errorResp 2 "token required", [], st)
    | some c =>
      match Authorize env.cwd env.now st.limiter (some c) "fs.read" "" with
      | (some e, lim') => (errorResp e.code e.message, [], { st with limiter := lim' })
      | (none, lim') =>
        let st1 : FsState := { st with limiter := lim' }
        if handle = "" then (errorResp 1 "missing handle param", [], st1)
        else
          match alookup st.table.handles handle with
          | none => (errorResp 4 "invalid handle", [], st1)
          | some entry =>
            if entry.capID ≠ c.id then
              (errorResp 3 "handle not bound to this capability", [], st1)
            else if entry.capID ∈ st.table.revoked then
              (errorResp 3 "capability revoked", [], st1)
            else if env.osRead entry.path then
              (successResp, [Effect.readAt entry.path], st1)
            else
              (errorResp 5 "io error", [Effect.readAt entry.path], st1)

/-- The `fs.list` handler. -/
def fsList (env : Env) (st : FsState) (tok : Option String) (path : String) :
    Resp × List Effect × FsState :=
  match extractClaims env tok with
  | .error r => (r, [], st)
  | .ok claims =>
    if path = "" then (errorResp 1 "missing path param", [], st)
    else
      match claims with
      | none => (errorResp 2 "token required", [], st)
      | some c =>
        match Authorize env.cwd env.now st.limiter (some c) "fs.list" path with
        | (some e, lim') => (errorResp e.code e.message, [], { st with limiter := lim' })
        | (none, lim') =>
          let st1 : FsState := { st with limiter := lim' }
          if c.id ∈ st.table.revoked then
            (errorResp 3 "capability revoked", [], st1)
          else
            match env.osReadDir path with
            | .notExist => (errorResp 4 "directory not found", [Effect.osReadDir path], st1)
            | .fail => (errorResp 5 "io error", [Effect.osReadDir path], st1)
            | .ok => (successResp, [Effect.osReadDir path], st1)

/-- The `fs.revoke` handler (internal notification endpoint). -/
def fsRevoke (st : FsState) (capID : String) : Resp × List Effect × FsState :=
  if capID = "" then (errorResp 1 "missing cap_id param", [], st)
  else (successResp, [], { st with table := tableRevoke st.table capID })

/-- One inbound FS request, as dispatched by the IPC server. -/
inductive FsOp
  | opOpen (tok : Option String) (path : String)
  | opRead (tok : Option String) (handle : String)
  | opList (tok : Option String) (path : String)
  | opRevoke (capID : String)
deriving DecidableEq, Repr

def execOp (env : Env) (st : FsState) : FsOp → Resp × List Effect × FsState
  | .opOpen tok path => fsOpen env st tok path
  | .opRead tok handle => fsRead env st tok handle
  | .opList tok path => fsList env st tok path
  | .opRevoke capID => fsRevoke st capID

/-- Run a request trace, keeping only the final state. -/
def execTrace (env : Env) (st : FsState) : List FsOp → FsState
  | [] => st
  | op :: rest => execTrace env (execOp env st op).2.2 rest

/-- `op` is a resource request presented under the token `tok`. -/
def FsOp.isUseOf (op : FsOp) (tok : String) : Prop :=
  (∃ p, op = FsOp.opOpen (some tok) p) ∨
  (∃ h, op = FsOp.opRead (some tok) h) ∨
  (∃ p, op = FsOp.opList (some tok) p)

/-! ## Trace models for the limiter and the handle table -/

/-- `k` consecutive `enforceRateLimit` calls for one capability at one
instant, keeping only the limiter state. -/
def iterLimiter (now : ℚ) (cid rl : String) : Nat → LimiterState → LimiterState
  | 0, st => st
  | k + 1, st => (enforceRateLimit (iterLimiter now cid rl k st) now cid rl).2

/-- A handle-table operation: `topen` carries whether the preceding
`os.Open` succeeded (the table is only touched on success). -/
inductive TableOp
  | topen (osOk : Bool) (path capID : String)
  | trevoke (capID : String)
  | tclose
deriving DecidableEq, Repr

def execTable (cwd : String) (t : HandleTable) : TableOp → Option String × HandleTable
  | .topen osOk path capID =>
    if osOk then
      let r := tableOpen cwd t path capID
      (some r.1, r.2)
    else (none, t)
  | .trevoke c => (none, tableRevoke t c)
  | .tclose => (none, tableCloseAll t)

/-- Run table operations, collecting the handle ids returned by the
successful opens in order. -/
def runTable (cwd : String) (t : HandleTable) : List TableOp → List String × HandleTable
  | [] => ([], t)
  | op :: rest =>
    let r := execTable cwd t op
    let rec' := runTable cwd r.2 rest
    (match r.1 with
     | some id => id :: rec'.1
     | none => rec'.1, rec'.2)

/-- Handle-table well-formedness: every stored key is `"h" ++ k` for some
counter value `k` at most the current counter. -/
def TableInv (t : HandleTable) : Prop :=
  ∀ h e, alookup t.handles h = some e → ∃ m, m ≤ t.nextID ∧ h = hId m

/-- Number of successful opens in a table-operation trace (each one
advances the `uint64` counter by one). -/
def opensCount : List TableOp → Nat
  | [] => 0
  | op :: rest =>
    (match op with
     | TableOp.topen true _ _ => 1
     | _ => 0) + opensCount rest

/-! ## Concrete instances used by the witness theorems -/

/-- A claims record holding the three fs rights and no constraints. -/
def capW : Capability :=
  ⟨"cap1", "capability", 0, 100, "fs", [], ["fs.open", "fs.read", "fs.list"], ⟨"", ""⟩⟩

/-- A second capability with the same rights but a different id. -/
def capW2 : Capability :=
  ⟨"cap2", "capability", 0, 100, "fs", [], ["fs.open", "fs.read", "fs.list"], ⟨"", ""⟩⟩

/-- A toy FS environment: two fixed tokens, a permissive OS. -/
def envW : Env :=
  ⟨fun t => if t = "tok1" then .ok capW else if t = "tok2" then .ok capW2
            else .error "invalid signature",
   1, "/", fun _ => .ok, fun _ => .ok, fun _ => true⟩

/-- An FS state with one handle `h1` opened under `capW`. -/
def stW : FsState := ⟨⟨[("h1", ⟨"cap1", "/tmp/x"⟩)], [], 1⟩, ⟨[]⟩⟩

/-- Minimal claims record for codec computations. -/
def c0 : Capability := ⟨"a", "capability", 0, 0, "fs", [], [], ⟨"", ""⟩⟩

/-- A concrete `SigScheme` instance: a constant-signature scheme and an
id-only serializer. It satisfies the signature-correctness and
serialization round-trip hypotheses, standing in for `crypto/ed25519`
and `encoding/json` in the closed witness computations. -/
def S0 : SigScheme :=
  ⟨fun _ => List.replicate 64 (0 : Byte),
   fun _ s => decide (s = List.replicate 64 (0 : Byte)),
   fun c => strBytes c.id,
   fun bs => if bs = strBytes "a" then some c0 else none⟩

/-- FS environment whose verifier is the embedded token codec over `S0`. -/
def envC : Env :=
  ⟨fun s => VerifyTok S0 s.toList, 0, "/", fun _ => .ok, fun _ => .ok, fun _ => true⟩

/-! # Theorems -/

/-- Inversion of a successful `Authorize`: every step of the decision
order must have passed. -/
lemma authorize_ok_inv {cwd : String} {now : ℚ} {lim lim' : LimiterState}
    {c : Capability} {m p : String}
    (h : Authorize cwd now lim (some c) m p = (none, lim')) :
    ∃ svc act, splitMethod m = some (svc, act) ∧ c.service = svc ∧
      (hasRight c.rights m = true ∨ hasAction c.actions act = true) ∧
      enforcePathPrefix cwd c.constraints.pathPrefix p = none ∧
      enforceRateLimit lim now c.id c.constraints.rateLimit = (none, lim') := by
  unfold Authorize at h
  cases hsp : splitMethod m with
  | none => rw [hsp] at h; simp at h
  | some pr =>
    obtain ⟨svc, act⟩ := pr
    rw [hsp] at h
    simp only at h
    by_cases hsv : c.service ≠ svc
    · rw [if_pos hsv] at h; simp at h
    · rw [if_neg hsv] at h
      cases hperm : (hasRight c.rights m || hasAction c.actions act) with
      | false => rw [hperm] at h; simp at h
      | true =>
        rw [hperm] at h
        simp only [Bool.not_true, Bool.false_eq_true, if_false] at h
        unfold enforceConstraints at h
        cases hpp : enforcePathPrefix cwd c.constraints.pathPrefix p with
        | some e => rw [hpp] at h; simp at h
        | none =>
          rw [hpp] at h
          exact ⟨svc, act, rfl, not_ne_iff.mp hsv, by simpa using hperm,
            rfl, h⟩

/-- Inversion of a passing path-prefix constraint with a non-empty prefix
and path: the path is inside the prefix subtree and contains no `..`. -/
lemma enforcePathPrefix_ok {cwd pfx path : String} (hP : pfx ≠ "") (hQ : path ≠ "")
    (h : enforcePathPrefix cwd pfx path = none) :
    (goAbs cwd path = goAbs cwd pfx ∨
      goHasPrefix (goAbs cwd path) (goAbs cwd pfx ++ "/") = true) ∧
    goContains path ".." = false := by
  unfold enforcePathPrefix at h
  rw [if_neg hP, if_neg hQ] at h
  cases hc : goContains path ".." with
  | true => rw [hc] at h; simp at h
  | false =>
    rw [hc] at h
    simp only [Bool.false_eq_true, if_false] at h
    refine ⟨?_, rfl⟩
    by_cases he : goAbs cwd path = goAbs cwd pfx
    · exact Or.inl he
    · cases hgp : goHasPrefix (goAbs cwd path) (goAbs cwd pfx ++ "/") with
      | true => exact Or.inr rfl
      | false =>
        exfalso
        rw [if_pos (by simp [he, hgp])] at h
        simp at h

/-- C1. Deny-by-default of `Authorize`: a nil claims pointer is always
`Unauthenticated` (code 2), and an `Ok` (nil-error) outcome requires
claims to be present, the method to split as `service.action`, the claims
service to match, the right or legacy action to be held, and the path and
rate constraints to pass. -/
theorem deny_by_default :
    (∀ (cwd : String) (now : ℚ) (lim lim' : LimiterState) (claims : Option Capability)
        (m p : String),
      Authorize cwd now lim claims m p = (none, lim') →
      ∃ c svc act, claims = some c ∧ splitMethod m = some (svc, act) ∧
        c.service = svc ∧
        (hasRight c.rights m = true ∨ hasAction c.actions act = true) ∧
        enforcePathPrefix cwd c.constraints.pathPrefix p = none ∧
        (enforceRateLimit lim now c.id c.constraints.rateLimit).1 = none) ∧
    (∀ (cwd : String) (now : ℚ) (lim : LimiterState) (m p : String),
      ∃ e, Authorize cwd now lim none m p = (some e, lim) ∧ e.code = 2) := by
  constructor
  · intro cwd now lim lim' claims m p h
    match claims with
    | none => simp [Authorize] at h
    | some c =>
      obtain ⟨svc, act, h1, h2, h3, h4, h5⟩ := authorize_ok_inv h
      exact ⟨c, svc, act, rfl, h1, h2, h3, h4, by rw [h5]⟩
  · intro cwd now lim m p
    exact ⟨⟨2, "UNAUTHENTICATED", "token required"⟩,
      by simp [Authorize, CodeUnauthenticated], rfl⟩

/-- Witness for C1 at concrete inputs. -/
theorem deny_by_default_witness :
    (∃ c svc act, (some capW : Option Capability) = some c ∧
      splitMethod "fs.open" = some (svc, act) ∧ c.service = svc ∧
      (hasRight c.rights "fs.open" = true ∨ hasAction c.actions act = true) ∧
      enforcePathPrefix "/" c.constraints.pathPrefix "/tmp/x" = none ∧
      (enforceRateLimit ⟨[]⟩ 0 c.id c.constraints.rateLimit).1 = none) ∧
    (∃ e, Authorize "/" 0 ⟨[]⟩ none "fs.open" "" = (some e, ⟨[]⟩) ∧ e.code = 2) :=
  ⟨deny_by_default.1 "/" 0 ⟨[]⟩ ⟨[]⟩ (some capW) "fs.open" "/tmp/x" (by decide),
   deny_by_default.2 "/" 0 ⟨[]⟩ "fs.open" ""⟩

/-- C2. Path containment: when a non-empty prefix `P` and non-empty path
`Q` pass `enforcePathPrefix`, `abs Q` equals `abs P` or extends it past a
separator, and `Q` contains no `..`; the same holds of any `Ok` from
`Authorize` with those constraints; and with prefix `/tmp` the path
`/tmpevil` is denied. -/
theorem path_containment :
    (∀ cwd P Q, P ≠ "" → Q ≠ "" → enforcePathPrefix cwd P Q = none →
      (goAbs cwd Q = goAbs cwd P ∨
        goHasPrefix (goAbs cwd Q) (goAbs cwd P ++ "/") = true) ∧
      goContains Q ".." = false) ∧
    (∀ (cwd : String) (now : ℚ) (lim lim' : LimiterState) (c : Capability)
        (m Q : String),
      c.constraints.pathPrefix ≠ "" → Q ≠ "" →
      Authorize cwd now lim (some c) m Q = (none, lim') →
      (goAbs cwd Q = goAbs cwd c.constraints.pathPrefix ∨
        goHasPrefix (goAbs cwd Q) (goAbs cwd c.constraints.pathPrefix ++ "/") = true) ∧
      goContains Q ".." = false) ∧
    enforcePathPrefix "/" "/tmp" "/tmpevil" ≠ none := by
  refine ⟨?_, ?_, by decide⟩
  · intro cwd P Q hP hQ h
    exact enforcePathPrefix_ok hP hQ h
  · intro cwd now lim lim' c m Q hP hQ h
    obtain ⟨svc, act, _, _, _, h4, _⟩ := authorize_ok_inv h
    exact enforcePathPrefix_ok hP hQ h4

/-- Witness for C2 at concrete inputs. -/
theorem path_containment_witness :
    ((goAbs "/" "/tmp/x" = goAbs "/" "/tmp" ∨
        goHasPrefix (goAbs "/" "/tmp/x") (goAbs "/" "/tmp" ++ "/") = true) ∧
      goContains "/tmp/x" ".." = false) ∧
    ((goAbs "/" "/tmp/y" = goAbs "/" "/tmp" ∨
        goHasPrefix (goAbs "/" "/tmp/y") (goAbs "/" "/tmp" ++ "/") = true) ∧
      goContains "/tmp/y" ".." = false) :=
  ⟨path_containment.1 "/" "/tmp" "/tmp/x" (by decide) (by decide) (by decide),
   path_containment.2.1 "/" 0 ⟨[]⟩ ⟨[]⟩
     ⟨"cap1", "capability", 0, 100, "fs", [], ["fs.open"], ⟨"/tmp", ""⟩⟩
     "fs.open" "/tmp/y" (by decide) (by decide) (by decide)⟩

/-- C9. Rate-limit fail-open: an empty rate string applies no limit, an
unparseable one applies no limit either, and the bucket state is left
untouched in both cases; `"50rpm"`, `"abc"`, `"0rps"`, `"-1rps"` all fail
to parse. -/
theorem rate_limit_fail_open :
    (∀ (st : LimiterState) (now : ℚ) (cid : String),
      enforceRateLimit st now cid "" = (none, st)) ∧
    (∀ (st : LimiterState) (now : ℚ) (cid rl : String),
      parseRate rl = none → enforceRateLimit st now cid rl = (none, st)) ∧
    parseRate "50rpm" = none ∧ parseRate "abc" = none ∧
    parseRate "0rps" = none ∧ parseRate "-1rps" = none := by
  refine ⟨?_, ?_, by decide, by decide, by decide, by decide⟩
  · intro st now cid
    simp [enforceRateLimit]
  · intro st now cid rl h
    unfold enforceRateLimit
    by_cases he : rl = ""
    · rw [if_pos he]
    · rw [if_neg he, h]

/-- Witness for C9 at concrete inputs. -/
theorem rate_limit_fail_open_witness :
    enforceRateLimit ⟨[]⟩ 0 "c" "" = (none, ⟨[]⟩) ∧
    enforceRateLimit ⟨[]⟩ 0 "c" "50rpm" = (none, ⟨[]⟩) :=
  ⟨rate_limit_fail_open.1 ⟨[]⟩ 0 "c",
   rate_limit_fail_open.2.1 ⟨[]⟩ 0 "c" "50rpm" (by decide)⟩


/-- A parseable rate string is non-empty. -/
lemma parseRate_ne_empty {rl : String} {r : ℚ} (h : parseRate rl = some r) :
    rl ≠ "" := by
  intro he; subst he
  rw [show parseRate "" = none by decide] at h
  cases h

/-- `enforceRateLimit` from an empty bucket map: the bucket is created
full, refilled by zero, and one token is consumed when available. -/
lemma enforce_step_empty (cid : String) {rl : String} {N : ℚ}
    (hp : parseRate rl = some N) (now : ℚ) :
    enforceRateLimit ⟨[]⟩ now cid rl =
      if N < 1 then
        (some ⟨CodeResourceExhausted, "RESOURCE_EXHAUSTED", "rate limit exceeded"⟩,
         ⟨[(cid, ⟨N, N, now⟩)]⟩)
      else (none, ⟨[(cid, ⟨N - 1, N, now⟩)]⟩) := by
  unfold enforceRateLimit
  rw [if_neg (parseRate_ne_empty hp), hp]
  simp only [alookup]
  rw [show now - now = 0 by ring]
  rw [zero_mul, add_zero, if_neg (lt_irrefl N)]
  simp [aupsert]

/-- `enforceRateLimit` on a single-bucket map keyed by the capability. -/
lemma enforce_step_bucket (cid : String) {rl : String} {N : ℚ}
    (hp : parseRate rl = some N) (t r l now : ℚ) :
    enforceRateLimit ⟨[(cid, ⟨t, r, l⟩)]⟩ now cid rl =
      if (if t + (now - l) * r > r then r else t + (now - l) * r) < 1 then
        (some ⟨CodeResourceExhausted, "RESOURCE_EXHAUSTED", "rate limit exceeded"⟩,
         ⟨[(cid, ⟨if t + (now - l) * r > r then r else t + (now - l) * r, r, now⟩)]⟩)
      else
        (none,
         ⟨[(cid, ⟨(if t + (now - l) * r > r then r else t + (now - l) * r) - 1, r, now⟩)]⟩) := by
  unfold enforceRateLimit
  rw [if_neg (parseRate_ne_empty hp), hp]
  simp [alookup, aupsert]

/-- Bucket contents after `k ≤ N` immediate calls from an empty limiter:
the bucket is created on the first call and holds `N − k` tokens. -/
lemma iter_buckets (cid : String) {rl : String} {N : ℕ} (hN : 1 ≤ N)
    (hparse : parseRate rl = some (N : ℚ)) (now : ℚ) :
    ∀ k, k ≤ N →
      iterLimiter now cid rl k ⟨[]⟩ =
        if k = 0 then ⟨[]⟩ else ⟨[(cid, ⟨(N : ℚ) - k, N, now⟩)]⟩ := by
  have hNQ : (1 : ℚ) ≤ N := by exact_mod_cast hN
  intro k
  induction k with
  | zero => intro _; rfl
  | succ k ih =>
    intro hk
    have hk' : k ≤ N := Nat.le_of_succ_le hk
    have hcast : (k : ℚ) + 1 ≤ (N : ℚ) := by exact_mod_cast hk
    show (enforceRateLimit (iterLimiter now cid rl k ⟨[]⟩) now cid rl).2 = _
    rw [ih hk']
    by_cases hk0 : k = 0
    · subst hk0
      rw [if_pos rfl, enforce_step_empty cid hparse now,
          if_neg (by simp only [not_lt]; exact hNQ : ¬ (N : ℚ) < 1),
          if_neg (by omega : ¬ 0 + 1 = 0)]
      norm_num
    · rw [if_neg hk0, enforce_step_bucket cid hparse _ _ _ now]
      have h0k : (0 : ℚ) ≤ k := by positivity
      rw [show now - now = 0 by ring, zero_mul, add_zero,
          if_neg (by linarith : ¬ (N : ℚ) - k > N),
          if_neg (by linarith : ¬ (N : ℚ) - k < 1),
          if_neg (by omega : ¬ k + 1 = 0)]
      have : ((k : ℚ) + 1) = ((k + 1 : ℕ) : ℚ) := by push_cast; ring
      rw [show (N : ℚ) - k - 1 = (N : ℚ) - ((k + 1 : ℕ) : ℚ) by push_cast; ring]

/-- Bucket contents after the exhausted `(N+1)`-th call: zero tokens. -/
lemma iter_buckets_exhausted (cid : String) {rl : String} {N : ℕ} (hN : 1 ≤ N)
    (hparse : parseRate rl = some (N : ℚ)) (now : ℚ) :
    iterLimiter now cid rl (N + 1) ⟨[]⟩ = ⟨[(cid, ⟨0, N, now⟩)]⟩ := by
  show (enforceRateLimit (iterLimiter now cid rl N ⟨[]⟩) now cid rl).2 = _
  rw [iter_buckets cid hN hparse now N le_rfl, if_neg (by omega : ¬ N = 0),
      enforce_step_bucket cid hparse _ _ _ now]
  have hNQ : (1 : ℚ) ≤ N := by exact_mod_cast hN
  rw [show now - now = 0 by ring, zero_mul, add_zero,
      if_neg (by linarith : ¬ (N : ℚ) - N > N),
      if_pos (by norm_num : (N : ℚ) - N < 1)]
  norm_num

/-- C6. Token bucket: with `rate_limit` parsing to `N` tokens/sec and no
time elapsing, the first `N` calls pass, the `(N+1)`-th returns
`ResourceExhausted` (code 7); after waiting `1/N` seconds exactly one
further call passes and the next is again exhausted. -/
theorem rate_limit_token_bucket (cid rl : String) (N : ℕ) (hN : 1 ≤ N)
    (hparse : parseRate rl = some (N : ℚ)) (now : ℚ) :
    (∀ k, k < N →
      (enforceRateLimit (iterLimiter now cid rl k ⟨[]⟩) now cid rl).1 = none) ∧
    (∃ e, (enforceRateLimit (iterLimiter now cid rl N ⟨[]⟩) now cid rl).1 = some e ∧
      e.code = 7) ∧
    (enforceRateLimit (iterLimiter now cid rl (N + 1) ⟨[]⟩) (now + 1 / N) cid rl).1
      = none ∧
    (enforceRateLimit
      (enforceRateLimit (iterLimiter now cid rl (N + 1) ⟨[]⟩) (now + 1 / N) cid rl).2
      (now + 1 / N) cid rl).1.isSome = true := by
  have hNQ : (1 : ℚ) ≤ N := by exact_mod_cast hN
  have hN0 : (N : ℚ) ≠ 0 := by linarith
  have hrefill : (0 : ℚ) + (now + 1 / N - now) * N = 1 := by
    field_simp
    ring
  refine ⟨?_, ?_, ?_, ?_⟩
  · intro k hk
    have hcast : (k : ℚ) + 1 ≤ (N : ℚ) := by exact_mod_cast hk
    rw [iter_buckets cid hN hparse now k (Nat.le_of_lt hk)]
    by_cases hk0 : k = 0
    · subst hk0
      rw [if_pos rfl, enforce_step_empty cid hparse now,
          if_neg (by simp only [not_lt]; exact hNQ : ¬ (N : ℚ) < 1)]
    · have h0k : (0 : ℚ) ≤ k := by positivity
      rw [if_neg hk0, enforce_step_bucket cid hparse _ _ _ now,
          show now - now = 0 by ring, zero_mul, add_zero,
          if_neg (by linarith : ¬ (N : ℚ) - k > N),
          if_neg (by linarith : ¬ (N : ℚ) - k < 1)]
  · rw [iter_buckets cid hN hparse now N le_rfl, if_neg (by omega : ¬ N = 0),
        enforce_step_bucket cid hparse _ _ _ now,
        show now - now = 0 by ring, zero_mul, add_zero,
        if_neg (by linarith : ¬ (N : ℚ) - N > N),
        if_pos (by norm_num : (N : ℚ) - N < 1)]
    exact ⟨_, rfl, rfl⟩
  · rw [iter_buckets_exhausted cid hN hparse now,
        enforce_step_bucket cid hparse _ _ _ (now + 1 / N), hrefill,
        if_neg (by linarith : ¬ (1 : ℚ) > N),
        if_neg (by norm_num : ¬ (1 : ℚ) < 1)]
  · rw [iter_buckets_exhausted cid hN hparse now,
        enforce_step_bucket cid hparse _ _ _ (now + 1 / N), hrefill,
        if_neg (by linarith : ¬ (1 : ℚ) > N),
        if_neg (by norm_num : ¬ (1 : ℚ) < 1)]
    simp only
    rw [show (1 : ℚ) - 1 = 0 by ring,
        enforce_step_bucket cid hparse _ _ _ (now + 1 / N),
        show (0 : ℚ) + (now + 1 / N - (now + 1 / N)) * N = 0 by ring,
        if_neg (by linarith : ¬ (0 : ℚ) > N),
        if_pos (by norm_num : (0 : ℚ) < 1)]
    rfl

/-- Witness for C6 at `N = 2`, `rl = "2rps"`. -/
theorem rate_limit_token_bucket_witness :
    (enforceRateLimit (iterLimiter 0 "c" "2rps" 1 ⟨[]⟩) 0 "c" "2rps").1 = none ∧
    (∃ e, (enforceRateLimit (iterLimiter 0 "c" "2rps" 2 ⟨[]⟩) 0 "c" "2rps").1 = some e ∧
      e.code = 7) :=
  ⟨(rate_limit_token_bucket "c" "2rps" 2 (by omega) (by decide) 0).1 1 (by omega),
   (rate_limit_token_bucket "c" "2rps" 2 (by omega) (by decide) 0).2.1⟩

/-- `extractClaims` on a present, cryptographically valid, unexpired token. -/
lemma extractClaims_valid {env : Env} {tok : String} {c : Capability}
    (htok : tok ≠ "") (hver : env.verify tok = .ok c)
    (hexp : c.isExpired env.now = false) :
    extractClaims env (some tok) = .ok (some c) := by
  simp only [extractClaims]
  rw [if_neg htok]
  simp [hver, hexp]

/-- C3. Handle binding: a valid, authorized token whose capability id
differs from the id stored in the handle entry is denied `fs.read` with
`PermissionDenied` and no read effect, the service state unchanged apart
from rate accounting. -/
theorem handle_binding (env : Env) (st : FsState) (tok handle : String)
    (c2 : Capability) (entry : HandleEntry) (lim' : LimiterState)
    (htok : tok ≠ "") (hhandle : handle ≠ "")
    (hver : env.verify tok = .ok c2)
    (hexp : c2.isExpired env.now = false)
    (hget : alookup st.table.handles handle = some entry)
    (hbind : entry.capID ≠ c2.id)
    (hauth : Authorize env.cwd env.now st.limiter (some c2) "fs.read" "" = (none, lim')) :
    fsRead env st (some tok) handle =
      (errorResp 3 "handle not bound to this capability", [],
        { st with limiter := lim' }) := by
  unfold fsRead
  rw [extractClaims_valid htok hver hexp]
  simp only [hauth, hget, if_neg hhandle, if_pos hbind]

/-- Witness for C3 at concrete inputs. -/
theorem handle_binding_witness :
    fsRead envW stW (some "tok2") "h1" =
      (errorResp 3 "handle not bound to this capability", [],
        { stW with limiter := ⟨[]⟩ }) :=
  handle_binding envW stW "tok2" "h1" capW2 ⟨"cap1", "/tmp/x"⟩ ⟨[]⟩
    (by decide) (by decide) rfl (by decide) (by decide) (by decide)
    (by decide)

/-- `fs.open` never changes the replica revoked set. -/
lemma fsOpen_table_revoked (env : Env) (st : FsState) (tok : Option String)
    (path : String) :
    (fsOpen env st tok path).2.2.table.revoked = st.table.revoked := by
  unfold fsOpen tableOpen
  repeat' split
  all_goals rfl

/-- `fs.read` never changes the handle table. -/
lemma fsRead_table (env : Env) (st : FsState) (tok : Option String)
    (handle : String) :
    (fsRead env st tok handle).2.2.table = st.table := by
  unfold fsRead
  repeat' split
  all_goals rfl

/-- `fs.list` never changes the handle table. -/
lemma fsList_table (env : Env) (st : FsState) (tok : Option String)
    (path : String) :
    (fsList env st tok path).2.2.table = st.table := by
  unfold fsList
  repeat' split
  all_goals rfl

/-- Replica revocations are never removed by any request. -/
lemma execOp_revoked_mono (env : Env) (st : FsState) (op : FsOp) {c : String}
    (h : c ∈ st.table.revoked) : c ∈ (execOp env st op).2.2.table.revoked := by
  cases op with
  | opOpen tok p => simpa only [execOp, fsOpen_table_revoked] using h
  | opRead tok hd => simpa only [execOp, fsRead_table] using h
  | opList tok p => simpa only [execOp, fsList_table] using h
  | opRevoke cid =>
    simp only [execOp, fsRevoke, tableRevoke]
    split
    · exact h
    · exact List.mem_cons_of_mem _ h

/-- Replica revocations survive any request trace. -/
lemma execTrace_revoked_mono (env : Env) (ops : List FsOp) :
    ∀ (st : FsState) (c : String), c ∈ st.table.revoked →
      c ∈ (execTrace env st ops).table.revoked := by
  induction ops with
  | nil => intro st c h; exact h
  | cons op rest ih =>
    intro st c h
    exact ih _ _ (execOp_revoked_mono env st op h)

/-- A revoked capability is denied `fs.open` with no OS effect. -/
lemma fsOpen_denied_revoked {env : Env} {st : FsState} {tok : String}
    {c : Capability} (path : String) (htok : tok ≠ "")
    (hver : env.verify tok = .ok c) (hexp : c.isExpired env.now = false)
    (hrev : c.id ∈ st.table.revoked) :
    (fsOpen env st (some tok) path).1.ok = false ∧
    (fsOpen env st (some tok) path).2.1 = [] := by
  unfold fsOpen
  rw [extractClaims_valid htok hver hexp]
  rcases hA : Authorize env.cwd env.now st.limiter (some c) "fs.open" path with ⟨e, lim'⟩
  by_cases hp : path = ""
  · simp [hp, errorResp]
  · cases e with
    | some err => simp [hp, hA, errorResp]
    | none => simp [hp, hA, hrev, errorResp]

/-- A revoked capability is denied `fs.list` with no OS effect. -/
lemma fsList_denied_revoked {env : Env} {st : FsState} {tok : String}
    {c : Capability} (path : String) (htok : tok ≠ "")
    (hver : env.verify tok = .ok c) (hexp : c.isExpired env.now = false)
    (hrev : c.id ∈ st.table.revoked) :
    (fsList env st (some tok) path).1.ok = false ∧
    (fsList env st (some tok) path).2.1 = [] := by
  unfold fsList
  rw [extractClaims_valid htok hver hexp]
  rcases hA : Authorize env.cwd env.now st.limiter (some c) "fs.list" path with ⟨e, lim'⟩
  by_cases hp : path = ""
  · simp [hp, errorResp]
  · cases e with
    | some err => simp [hp, hA, errorResp]
    | none => simp [hp, hA, hrev, errorResp]

/-- A revoked capability is denied `fs.read` — even on its own old
handles — with no read effect. -/
lemma fsRead_denied_revoked {env : Env} {st : FsState} {tok : String}
    {c : Capability} (handle : String) (htok : tok ≠ "")
    (hver : env.verify tok = .ok c) (hexp : c.isExpired env.now = false)
    (hrev : c.id ∈ st.table.revoked) :
    (fsRead env st (some tok) handle).1.ok = false ∧
    (fsRead env st (some tok) handle).2.1 = [] := by
  unfold fsRead
  rw [extractClaims_valid htok hver hexp]
  rcases hA : Authorize env.cwd env.now st.limiter (some c) "fs.read" "" with ⟨e, lim'⟩
  cases e with
  | some err => simp [hA, errorResp]
  | none =>
    by_cases hh : handle = ""
    · simp [hA, hh, errorResp]
    · rcases hget : alookup st.table.handles handle with _ | entry
      · simp [hA, hh, hget, errorResp]
      · by_cases hb : entry.capID ≠ c.id
        · simp [hA, hh, hget, hb, errorResp]
        · have hbe : entry.capID = c.id := not_not.mp hb
          simp [hA, hh, hget, hbe, hrev, errorResp]

/-- Any use of a revoked capability is denied with no effect. -/
lemma execOp_denied_revoked {env : Env} {st : FsState} {op : FsOp} {tok : String}
    {c : Capability} (hop : op.isUseOf tok) (htok : tok ≠ "")
    (hver : env.verify tok = .ok c) (hexp : c.isExpired env.now = false)
    (hrev : c.id ∈ st.table.revoked) :
    (execOp env st op).1.ok = false ∧ (execOp env st op).2.1 = [] := by
  rcases hop with ⟨p, rfl⟩ | ⟨hd, rfl⟩ | ⟨p, rfl⟩
  · exact fsOpen_denied_revoked p htok hver hexp hrev
  · exact fsRead_denied_revoked hd htok hver hexp hrev
  · exact fsList_denied_revoked p htok hver hexp hrev

/-- C4. Revocation immediacy: once the FS service has processed
`fs.revoke` for capability `C`, every later `fs.open`, `fs.read` or
`fs.list` request presented under a valid token for `C` — after any
intervening request trace — fails and never reaches the underlying file
operation. -/
theorem revocation_immediacy (env : Env) (st0 : FsState) (C : String)
    (hC : C ≠ "") (ops : List FsOp) (op : FsOp) (tok : String)
    (claims : Capability) (htok : tok ≠ "")
    (hver : env.verify tok = .ok claims) (hid : claims.id = C)
    (hexp : claims.isExpired env.now = false) (hop : op.isUseOf tok) :
    (execOp env (execTrace env (fsRevoke st0 C).2.2 ops) op).1.ok = false ∧
    (execOp env (execTrace env (fsRevoke st0 C).2.2 ops) op).2.1 = [] := by
  have h0 : C ∈ (fsRevoke st0 C).2.2.table.revoked := by
    unfold fsRevoke
    rw [if_neg hC]
    simp [tableRevoke]
  have h1 : C ∈ (execTrace env (fsRevoke st0 C).2.2 ops).table.revoked :=
    execTrace_revoked_mono env ops _ C h0
  subst hid
  exact execOp_denied_revoked hop htok hver hexp h1

/-- Witness for C4 at concrete inputs. -/
theorem revocation_immediacy_witness :
    (execOp envW (execTrace envW (fsRevoke stW "cap1").2.2 [])
      (FsOp.opRead (some "tok1") "h1")).1.ok = false ∧
    (execOp envW (execTrace envW (fsRevoke stW "cap1").2.2 [])
      (FsOp.opRead (some "tok1") "h1")).2.1 = [] :=
  revocation_immediacy envW stW "cap1" (by decide) [] (FsOp.opRead (some "tok1") "h1")
    "tok1" capW (by decide) rfl (by decide) (by decide)
    (Or.inr (Or.inl ⟨"h1", rfl⟩))

/-- C7. A denial by the verifier, `Authorize`, or the revocation check
(codes 1, 2, 3, 7) returns from `fs.open` and `fs.list` without touching
the OS resource and without modifying the handle table; only the
rate-bucket accounting may change. -/
theorem denial_never_touches_resource :
    (∀ (env : Env) (st : FsState) (tok : Option String) (path : String),
      (fsOpen env st tok path).1.ok = false →
      (fsOpen env st tok path).1.code ≠ 4 →
      (fsOpen env st tok path).1.code ≠ 5 →
      (fsOpen env st tok path).2.1 = [] ∧
      (fsOpen env st tok path).2.2.table = st.table) ∧
    (∀ (env : Env) (st : FsState) (tok : Option String) (path : String),
      (fsList env st tok path).1.ok = false →
      (fsList env st tok path).1.code ≠ 4 →
      (fsList env st tok path).1.code ≠ 5 →
      (fsList env st tok path).2.1 = [] ∧
      (fsList env st tok path).2.2.table = st.table) := by
  constructor
  · intro env st tok path
    unfold fsOpen
    repeat' split
    all_goals intro h1 h4 h5
    all_goals first
      | exact ⟨rfl, rfl⟩
      | exact absurd rfl h4
      | exact absurd rfl h5
      | simp [successResp] at h1
  · intro env st tok path
    unfold fsList
    repeat' split
    all_goals intro h1 h4 h5
    all_goals first
      | exact ⟨rfl, rfl⟩
      | exact absurd rfl h4
      | exact absurd rfl h5
      | simp [successResp] at h1

/-- Witness for C7 at a concrete denied request (missing token). -/
theorem denial_never_touches_resource_witness :
    ((fsOpen envW stW none "/x").2.1 = [] ∧
      (fsOpen envW stW none "/x").2.2.table = stW.table) ∧
    ((fsList envW stW none "/x").2.1 = [] ∧
      (fsList envW stW none "/x").2.2.table = stW.table) :=
  ⟨denial_never_touches_resource.1 envW stW none "/x" (by decide) (by decide) (by decide),
   denial_never_touches_resource.2 envW stW none "/x" (by decide) (by decide) (by decide)⟩

/-- Amended C8: a present token failing cryptographic verification always
yields `Unauthenticated` (code 2) with a message of the form
`"invalid token: " ++ reason`; the reason names the failing step. -/
theorem verify_failure_unauthenticated (env : Env) (tok e : String)
    (htok : tok ≠ "") (hver : env.verify tok = .error e) :
    extractClaims env (some tok) =
      .error (errorResp 2 ("invalid token: " ++ e)) := by
  simp only [extractClaims]
  rw [if_neg htok, hver]

/-- Witness for the amended C8. -/
theorem verify_failure_unauthenticated_witness :
    extractClaims envC (some "x") =
      .error (errorResp 2 ("invalid token: " ++ "invalid token header")) :=
  verify_failure_unauthenticated envC "x" "invalid token header" (by decide) rfl

/-- Counterexample to C8 as stated: two differently malformed tokens (bad
header vs. truncated body) produce different error messages through the
code's `"invalid token: " + err.Error()` construction. -/
theorem verify_message_counterexample :
    extractClaims envC (some "x") =
      .error (errorResp 2 "invalid token: invalid token header") ∧
    extractClaims envC (some "v2.public.AA") =
      .error (errorResp 2 "invalid token: token too short") ∧
    "invalid token: invalid token header" ≠ "invalid token: token too short" :=
  ⟨rfl, rfl, by decide⟩

/-! ## Base64 and token-codec lemmas (C5) -/

lemma listHasPrefix_append (p s : List Char) : listHasPrefix p (p ++ s) = true := by
  induction p with
  | nil => rfl
  | cons a t ih => simp [listHasPrefix, ih]

lemma byteToBits_length (b : Byte) : (byteToBits b).length = 8 := rfl

set_option maxRecDepth 4000 in
lemma byte_round : ∀ b : Byte, byteOfBits (byteToBits b) = b := by decide

lemma idx_char_round : ∀ i : Fin 64, b64Index (b64Char i) = some i := by decide

/-- Decoding the 6 bits of an encoded group recovers the padded group. -/
lemma idx_bits_round : ∀ (l : List Bool), l.length ≤ 6 →
    idxToBits (idxOfBits l) = padTo6 l := by
  intro l hl
  rcases l with _ | ⟨a, l⟩
  · decide
  rcases l with _ | ⟨b, l⟩
  · revert a; decide
  rcases l with _ | ⟨c, l⟩
  · revert a b; decide
  rcases l with _ | ⟨d, l⟩
  · revert a b c; decide
  rcases l with _ | ⟨e, l⟩
  · revert a b c d; decide
  rcases l with _ | ⟨f, l⟩
  · revert a b c d e; decide
  rcases l with _ | ⟨g, l⟩
  · revert a b c d e f; decide
  · exfalso; simp at hl

lemma mapM_b64Index (is : List (Fin 64)) :
    mapMOpt b64Index (is.map b64Char) = some is := by
  induction is with
  | nil => rfl
  | cons i t ih => simp [mapMOpt, idx_char_round i, ih]

/-- Chopping off a full leading group. -/
lemma groupsOf_append {α : Type} (k : Nat) (l1 l2 : List α)
    (h : l1.length = k) (hk : 0 < k) :
    groupsOf k (l1 ++ l2) = l1 :: groupsOf k l2 := by
  cases l1 with
  | nil => simp at h; omega
  | cons a t =>
    rw [List.cons_append, groupsOf_cons]
    have ht : t.length = k - 1 := by simp at h; omega
    rw [← ht, List.take_left, List.drop_left]

lemma groupsOf_length_le {α : Type} (k : Nat) (hk : 0 < k) :
    ∀ (n : Nat) (l : List α), l.length ≤ n →
      ∀ g ∈ groupsOf k l, g.length ≤ k := by
  intro n
  induction n with
  | zero =>
    intro l hl g hg
    match l, hl with
    | [], _ => rw [groupsOf_nil] at hg; simp at hg
  | succ n ih =>
    intro l hl g hg
    match l with
    | [] => rw [groupsOf_nil] at hg; simp at hg
    | a :: t =>
      rw [groupsOf_cons] at hg
      rcases List.mem_cons.mp hg with rfl | hg'
      · simp only [List.length_cons, List.length_take]
        omega
      · refine ih (t.drop (k - 1)) ?_ g hg'
        simp only [List.length_cons] at hl
        simp only [List.length_drop]
        omega

/-- Re-expanding the encoded groups yields the original bit stream plus
at most five padding zero bits. -/
lemma flatten_pad6 : ∀ (n : Nat) (l : List Bool), l.length ≤ n →
    ∃ r, r ≤ 5 ∧
      ((groupsOf 6 l).map padTo6).flatten = l ++ List.replicate r false := by
  intro n
  induction n with
  | zero =>
    intro l hl
    match l, hl with
    | [], _ => exact ⟨0, by omega, by simp [groupsOf_nil]⟩
  | succ n ih =>
    intro l hl
    match l with
    | [] => exact ⟨0, by omega, by simp [groupsOf_nil]⟩
    | a :: t =>
      rw [groupsOf_cons]
      by_cases h5 : 5 ≤ t.length
      · obtain ⟨r, hr, hrec⟩ := ih (t.drop (6 - 1)) (by
          simp only [List.length_cons] at hl
          simp only [List.length_drop]
          omega)
        refine ⟨r, hr, ?_⟩
        simp only [List.map_cons, List.flatten_cons, hrec]
        have hid : padTo6 (a :: t.take (6 - 1)) = a :: t.take (6 - 1) := by
          have hlen : (a :: t.take (6 - 1)).length = 6 := by
            simp only [List.length_cons, List.length_take]
            omega
          simp [padTo6, hlen]
        rw [hid]
        simp only [List.cons_append, List.append_assoc]
        rw [← List.append_assoc, List.take_append_drop]
      · refine ⟨5 - t.length, by omega, ?_⟩
        have hdrop : t.drop (6 - 1) = [] := List.drop_eq_nil_of_le (by omega)
        have htake : t.take (6 - 1) = t := List.take_of_length_le (by omega)
        rw [hdrop, htake, groupsOf_nil]
        simp only [List.map_cons, List.map_nil, List.flatten_cons,
          List.flatten_nil, List.append_nil, padTo6, List.cons_append]
        have : 6 - (a :: t).length = 5 - t.length := by
          simp only [List.length_cons]; omega
        rw [this]

lemma flatten_bytes_len (bs : List Byte) :
    ((bs.map byteToBits).flatten).length = 8 * bs.length := by
  induction bs with
  | nil => rfl
  | cons b t ih =>
    simp only [List.map_cons, List.flatten_cons, List.length_append, ih,
      byteToBits_length, List.length_cons]
    ring

lemma groupsOf6_len : ∀ (n : Nat) (l : List Bool), l.length ≤ n →
    (groupsOf 6 l).length = (l.length + 5) / 6 := by
  intro n
  induction n with
  | zero =>
    intro l hl
    match l, hl with
    | [], _ => rfl
  | succ n ih =>
    intro l hl
    match l with
    | [] => rfl
    | a :: t =>
      rw [groupsOf_cons]
      simp only [List.length_cons]
      rw [ih (t.drop (6 - 1)) (by
        simp only [List.length_cons] at hl
        simp only [List.length_drop]
        omega)]
      simp only [List.length_drop]
      omega

/-- The encoded character count is never `1 mod 4` (Go's decoder rejects
that shape). -/
lemma b64encode_len_mod (bs : List Byte) : (b64encode bs).length % 4 ≠ 1 := by
  unfold b64encode
  rw [List.length_map,
    groupsOf6_len ((bs.map byteToBits).flatten).length _ le_rfl,
    flatten_bytes_len]
  omega

/-- Decoding the byte-aligned bit stream plus up to five junk bits
recovers the bytes; the junk bits are silently dropped. -/
lemma groupsOf8_decode : ∀ (bs : List Byte) (pad : List Bool),
    pad.length ≤ 5 →
    (groupsOf 8 ((bs.map byteToBits).flatten ++ pad)).filterMap
      (fun g => if g.length = 8 then some (byteOfBits g) else none) = bs := by
  intro bs
  induction bs with
  | nil =>
    intro pad hp
    simp only [List.map_nil, List.flatten_nil, List.nil_append]
    cases pad with
    | nil => rfl
    | cons a t =>
      rw [groupsOf_cons]
      have hdrop : t.drop (8 - 1) = [] :=
        List.drop_eq_nil_of_le (by simp at hp; omega)
      rw [hdrop, groupsOf_nil]
      have h7 : ¬ (7 ≤ t.length) := by simp at hp; omega
      simp [List.filterMap, h7]
  | cons b rest ih =>
    intro pad hp
    have hsplit : (List.map byteToBits (b :: rest)).flatten ++ pad
        = byteToBits b ++ ((List.map byteToBits rest).flatten ++ pad) := by
      simp
    rw [hsplit, groupsOf_append 8 _ _ (byteToBits_length b) (by omega)]
    simp [List.filterMap_cons, byteToBits_length, byte_round b, ih pad hp]

/-- Go's RawURL base64 decode inverts encode. -/
lemma b64_round (bs : List Byte) : b64decode (b64encode bs) = some bs := by
  have henc : b64encode bs
      = ((groupsOf 6 ((bs.map byteToBits).flatten)).map idxOfBits).map b64Char := by
    unfold b64encode
    rw [List.map_map]
    rfl
  unfold b64decode
  rw [if_neg (b64encode_len_mod bs), henc, mapM_b64Index]
  simp only [List.map_map]
  have hmapeq : (groupsOf 6 ((bs.map byteToBits).flatten)).map (idxToBits ∘ idxOfBits)
      = (groupsOf 6 ((bs.map byteToBits).flatten)).map padTo6 := by
    apply List.map_congr_left
    intro g hg
    exact idx_bits_round g (groupsOf_length_le 6 (by omega) _ _ le_rfl g hg)
  rw [hmapeq]
  obtain ⟨r, hr, hflat⟩ :=
    flatten_pad6 ((bs.map byteToBits).flatten).length _ le_rfl
  rw [hflat, groupsOf8_decode bs _ (by simpa using hr)]

/-- Amended C5 (round-trip half): `Verify (Sign claims sk) pk = claims`
whenever the Ed25519 primitive verifies its own signatures on the signed
pre-authentication encoding and the claims serialization round-trips. -/
theorem token_round_trip (S : SigScheme) (c : Capability)
    (hlen : (S.edSign (pae [headerBytes, S.serialize c, []])).length = 64)
    (hver : S.edVerify (pae [headerBytes, S.serialize c, []])
        (S.edSign (pae [headerBytes, S.serialize c, []])) = true)
    (hser : S.deserialize (S.serialize c) = some c) :
    VerifyTok S (SignTok S c) = .ok c := by
  simp only [SignTok, VerifyTok]
  rw [listHasPrefix_append]
  simp only [Bool.not_true, Bool.false_eq_true, if_false]
  rw [List.drop_left, b64_round]
  simp only [List.length_append, hlen]
  rw [if_neg (by omega : ¬ (S.serialize c).length + 64 < 64),
    show (S.serialize c).length + 64 - 64 = (S.serialize c).length by omega,
    List.take_left, List.drop_left, hver]
  simp only [Bool.not_true, Bool.false_eq_true, if_false]
  rw [hser]

/-- Witness for the amended C5 round-trip at the concrete scheme `S0`. -/
theorem token_round_trip_witness :
    VerifyTok S0 (SignTok S0 c0) = .ok c0 :=
  token_round_trip S0 c0 (by decide) (by decide) (by decide)

set_option maxRecDepth 40000 in
/-- Counterexample to C5 as stated: changing the last byte of the signed
token from `A` to `B` gives a different token string that still verifies
to the same claims — Go's non-strict base64 decoder ignores the unused
trailing bits of the final character, so not every single-byte flip makes
`Verify` fail. -/
theorem token_flip_counterexample :
    ((SignTok S0 c0).dropLast ++ ['B'] ≠ SignTok S0 c0) ∧
    ((SignTok S0 c0).dropLast ++ ['B']).length = (SignTok S0 c0).length ∧
    ((SignTok S0 c0).dropLast ++ ['B']).dropLast = (SignTok S0 c0).dropLast ∧
    VerifyTok S0 ((SignTok S0 c0).dropLast ++ ['B']) = .ok c0 :=
  ⟨by decide, by decide, by decide, rfl⟩

/-! ## Handle-id freshness (C10) -/

lemma digitsToNat_append_digit (l : List Char) (c : Char) :
    digitsToNat (l ++ [c]) = 10 * digitsToNat l + (c.toNat - 48) := by
  unfold digitsToNat
  rw [List.foldl_append]
  rfl

lemma digitChar_val {d : Nat} (hd : d < 10) : (digitChar d).toNat - 48 = d := by
  interval_cases d <;> rfl

/-- The decimal rendering evaluates back to the number. -/
lemma digitsToNat_natDigits : ∀ n, digitsToNat (natDigits n) = n := by
  intro n
  induction n using Nat.strong_induction_on with
  | _ n ih =>
    rw [natDigits_eq]
    by_cases h : n < 10
    · rw [if_pos h]
      show 10 * 0 + ((digitChar n).toNat - 48) = n
      rw [digitChar_val h]
      omega
    · rw [if_neg h, digitsToNat_append_digit,
        ih (n / 10) (Nat.div_lt_self (by omega) (by omega)),
        digitChar_val (Nat.mod_lt _ (by omega))]
      omega

lemma natDigits_inj {m n : Nat} (h : natDigits m = natDigits n) : m = n := by
  have h2 := congrArg digitsToNat h
  rwa [digitsToNat_natDigits, digitsToNat_natDigits] at h2

/-- Handle identifiers are injective in the counter value. -/
lemma hId_inj {m n : Nat} (h : hId m = hId n) : m = n := by
  have hdata : 'h' :: natDigits m = 'h' :: natDigits n := congrArg String.data h
  injection hdata with _ h2
  exact natDigits_inj h2

lemma alookup_aupsert {α : Type} (l : List (String × α)) (k : String) (v : α)
    (q : String) :
    alookup (aupsert l k v) q = if k = q then some v else alookup l q := by
  induction l with
  | nil => rfl
  | cons p t ih =>
    obtain ⟨pk, pv⟩ := p
    simp only [aupsert]
    by_cases hp : pk = k
    · rw [if_pos hp]
      simp only [alookup]
      subst hp
      by_cases hq : pk = q
      · simp only [if_pos hq]
      · simp only [if_neg hq]
    · rw [if_neg hp]
      simp only [alookup, ih]
      by_cases hq : pk = q
      · have hkq : ¬ k = q := fun he => hp ((he.trans hq.symm).symm)
        simp only [if_pos hq, if_neg hkq]
      · simp only [if_neg hq]

lemma tableInv_init : TableInv initTable := by
  intro h e he
  simp [initTable, alookup] at he

/-- A fresh open cannot collide with a stored handle id, provided the
`uint64` counter does not wrap on this open. -/
lemma tableOpen_fresh {cwd : String} {t : HandleTable} (hInv : TableInv t)
    (hw : t.nextID + 1 < u64Mod) (path capID : String) :
    alookup t.handles (tableOpen cwd t path capID).1 = none := by
  show alookup t.handles (hId ((t.nextID + 1) % u64Mod)) = none
  rw [Nat.mod_eq_of_lt hw]
  cases hl : alookup t.handles (hId (t.nextID + 1)) with
  | none => rfl
  | some e =>
    obtain ⟨m, hm, hname⟩ := hInv _ _ hl
    have := hId_inj hname
    omega

/-- Well-formedness survives a non-wrapping open. -/
lemma tableInv_open {cwd : String} {t : HandleTable} (hInv : TableInv t)
    (hw : t.nextID + 1 < u64Mod) (path capID : String) :
    TableInv (tableOpen cwd t path capID).2 := by
  intro h e he
  have hh : alookup (aupsert t.handles (hId ((t.nextID + 1) % u64Mod))
      ⟨capID, goAbs cwd path⟩) h = some e := he
  rw [alookup_aupsert] at hh
  have hmod : (t.nextID + 1) % u64Mod = t.nextID + 1 := Nat.mod_eq_of_lt hw
  by_cases hnew : hId ((t.nextID + 1) % u64Mod) = h
  · refine ⟨(t.nextID + 1) % u64Mod, ?_, hnew.symm⟩
    show (t.nextID + 1) % u64Mod ≤ (t.nextID + 1) % u64Mod
    exact le_rfl
  · rw [if_neg hnew] at hh
    obtain ⟨m, hm, hname⟩ := hInv h e hh
    refine ⟨m, ?_, hname⟩
    show m ≤ (t.nextID + 1) % u64Mod
    omega

lemma opensCount_open_true (p c : String) (rest : List TableOp) :
    opensCount (TableOp.topen true p c :: rest) = 1 + opensCount rest := rfl

lemma opensCount_open_false (p c : String) (rest : List TableOp) :
    opensCount (TableOp.topen false p c :: rest) = 0 + opensCount rest := rfl

lemma opensCount_trevoke (c : String) (rest : List TableOp) :
    opensCount (TableOp.trevoke c :: rest) = 0 + opensCount rest := rfl

lemma opensCount_tclose (rest : List TableOp) :
    opensCount (TableOp.tclose :: rest) = 0 + opensCount rest := rfl

/-- Well-formedness survives a trace whose opens keep the counter below
the wrap point. -/
lemma runTable_inv (cwd : String) :
    ∀ (ops : List TableOp) (t : HandleTable), TableInv t →
      t.nextID + opensCount ops < u64Mod →
      TableInv (runTable cwd t ops).2 := by
  intro ops
  induction ops with
  | nil => intro t h _; exact h
  | cons op rest ih =>
    intro t h hw
    cases op with
    | topen ok path capID =>
      cases ok with
      | true =>
        rw [opensCount_open_true] at hw
        have h1 : t.nextID + 1 < u64Mod := by omega
        refine ih _ (tableInv_open h h1 path capID) ?_
        have hn : (execTable cwd t (TableOp.topen true path capID)).2.nextID
            = (t.nextID + 1) % u64Mod := rfl
        rw [hn, Nat.mod_eq_of_lt h1]
        omega
      | false =>
        rw [opensCount_open_false] at hw
        exact ih t h (by omega)
    | trevoke c =>
      rw [opensCount_trevoke] at hw
      exact ih (tableRevoke t c) (fun h2 e he => h h2 e he)
        (by rw [show (tableRevoke t c).nextID = t.nextID from rfl]; omega)
    | tclose =>
      rw [opensCount_tclose] at hw
      refine ih (tableCloseAll t) ?_
        (by rw [show (tableCloseAll t).nextID = t.nextID from rfl]; omega)
      intro h2 e he
      simp [tableCloseAll, alookup] at he

/-- Every id returned by an open in a non-wrapping trace exceeds the
starting counter. -/
lemma runTable_ids_gt (cwd : String) :
    ∀ (ops : List TableOp) (t : HandleTable),
      t.nextID + opensCount ops < u64Mod →
      ∀ id ∈ (runTable cwd t ops).1, ∃ m, t.nextID < m ∧ id = hId m := by
  intro ops
  induction ops with
  | nil =>
    intro t _ id hid
    simp [runTable] at hid
  | cons op rest ih =>
    intro t hw id hid
    cases op with
    | topen ok path capID =>
      cases ok with
      | false =>
        rw [opensCount_open_false] at hw
        simp only [runTable, execTable, Bool.false_eq_true, if_false] at hid
        exact ih t (by omega) id hid
      | true =>
        rw [opensCount_open_true] at hw
        have h1 : t.nextID + 1 < u64Mod := by omega
        simp only [runTable, execTable, if_true, List.mem_cons] at hid
        rcases hid with rfl | hid'
        · exact ⟨t.nextID + 1, by omega, by rw [show (tableOpen cwd t path capID).1
            = hId ((t.nextID + 1) % u64Mod) from rfl, Nat.mod_eq_of_lt h1]⟩
        · have hn : (tableOpen cwd t path capID).2.nextID = (t.nextID + 1) % u64Mod := rfl
          obtain ⟨m, hm, he⟩ := ih _ (by rw [hn, Nat.mod_eq_of_lt h1]; omega) id hid'
          rw [hn, Nat.mod_eq_of_lt h1] at hm
          exact ⟨m, by omega, he⟩
    | trevoke c =>
      rw [opensCount_trevoke] at hw
      simp only [runTable, execTable] at hid
      obtain ⟨m, hm, he⟩ := ih (tableRevoke t c)
        (by rw [show (tableRevoke t c).nextID = t.nextID from rfl]; omega) id hid
      exact ⟨m, hm, he⟩
    | tclose =>
      rw [opensCount_tclose] at hw
      simp only [runTable, execTable] at hid
      obtain ⟨m, hm, he⟩ := ih (tableCloseAll t)
        (by rw [show (tableCloseAll t).nextID = t.nextID from rfl]; omega) id hid
      exact ⟨m, hm, he⟩

/-- The ids returned by the opens of a non-wrapping trace are pairwise
distinct. -/
lemma runTable_pairwise (cwd : String) :
    ∀ (ops : List TableOp) (t : HandleTable),
      t.nextID + opensCount ops < u64Mod →
      ((runTable cwd t ops).1).Pairwise (fun a b => a ≠ b) := by
  intro ops
  induction ops with
  | nil => intro t _; simp [runTable]
  | cons op rest ih =>
    intro t hw
    cases op with
    | topen ok path capID =>
      cases ok with
      | false =>
        rw [opensCount_open_false] at hw
        simpa only [runTable, execTable, Bool.false_eq_true, if_false]
          using ih t (by omega)
      | true =>
        rw [opensCount_open_true] at hw
        have h1 : t.nextID + 1 < u64Mod := by omega
        have hn : (tableOpen cwd t path capID).2.nextID = (t.nextID + 1) % u64Mod := rfl
        have hbudget : (tableOpen cwd t path capID).2.nextID + opensCount rest < u64Mod := by
          rw [hn, Nat.mod_eq_of_lt h1]
          omega
        simp only [runTable, execTable, if_true]
        rw [List.pairwise_cons]
        refine ⟨?_, ih _ hbudget⟩
        intro b hb he
        obtain ⟨m, hm, rfl⟩ := runTable_ids_gt cwd rest _ hbudget b hb
        rw [hn, Nat.mod_eq_of_lt h1] at hm
        rw [show (tableOpen cwd t path capID).1
          = hId ((t.nextID + 1) % u64Mod) from rfl, Nat.mod_eq_of_lt h1] at he
        have := hId_inj he
        omega
    | trevoke c =>
      rw [opensCount_trevoke] at hw
      simpa only [runTable, execTable] using ih (tableRevoke t c)
        (by rw [show (tableRevoke t c).nextID = t.nextID from rfl]; omega)
    | tclose =>
      rw [opensCount_tclose] at hw
      simpa only [runTable, execTable] using ih (tableCloseAll t)
        (by rw [show (tableCloseAll t).nextID = t.nextID from rfl]; omega)

/-- Live entries are never mutated by a non-wrapping operation: a later
operation either preserves a stored entry exactly or removes it. -/
lemma execTable_stable {cwd : String} {t : HandleTable} (op : TableOp)
    {h : String} {e : HandleEntry} (hInv : TableInv t)
    (hw : t.nextID + 1 < u64Mod) (he : alookup t.handles h = some e) :
    alookup (execTable cwd t op).2.handles h = some e ∨
    alookup (execTable cwd t op).2.handles h = none := by
  cases op with
  | topen ok path capID =>
    cases ok with
    | false => exact Or.inl he
    | true =>
      left
      show alookup (aupsert t.handles (hId ((t.nextID + 1) % u64Mod))
        ⟨capID, goAbs cwd path⟩) h = some e
      rw [alookup_aupsert, if_neg ?hne]
      · exact he
      case hne =>
        intro hcontra
        obtain ⟨m, hm, rfl⟩ := hInv h e he
        rw [Nat.mod_eq_of_lt hw] at hcontra
        have := hId_inj hcontra
        omega
  | trevoke c => exact Or.inl he
  | tclose =>
    right
    simp [execTable, tableCloseAll, alookup]

/-- Ids returned by a run of `k` consecutive successful opens: the
successive counter values modulo `2^64`. -/
lemma runTable_replicate_ids (cwd p c : String) :
    ∀ (k : Nat) (t : HandleTable),
      (runTable cwd t (List.replicate k (TableOp.topen true p c))).1
        = (List.range k).map (fun i => hId ((t.nextID + i + 1) % u64Mod)) := by
  intro k
  induction k with
  | zero => intro t; simp [runTable]
  | succ k ih =>
    intro t
    rw [List.replicate_succ]
    simp only [runTable, execTable, if_true]
    rw [ih ((tableOpen cwd t p c).2)]
    have hn : (tableOpen cwd t p c).2.nextID = (t.nextID + 1) % u64Mod := rfl
    rw [hn, List.range_succ_eq_map]
    simp only [List.map_cons, List.map_map]
    congr 1
    apply List.map_congr_left
    intro i _
    simp only [Function.comp]
    congr 1
    rw [show (t.nextID + 1) % u64Mod + i + 1
        = (t.nextID + 1) % u64Mod + (i + 1) by omega,
      Nat.mod_add_mod]
    congr 1
    omega

/-- Counterexample to C10 as stated: Go's `atomic.Uint64` counter wraps
at `2^64`, so in a long enough trace `handleTable.Open` repeats an
earlier handle id — the returned ids of a `2^64 + 1`-open trace from the
initial table are not pairwise distinct (`"h1"` recurs). -/
theorem handle_id_wraparound :
    ¬ ((runTable "/" initTable
        (List.replicate (u64Mod + 1) (TableOp.topen true "/f" "c"))).1.Pairwise
          (fun a b => a ≠ b)) := by
  rw [runTable_replicate_ids]
  intro hpw
  rw [List.pairwise_iff_getElem] at hpw
  have hlen : ((List.range (u64Mod + 1)).map
      (fun i => hId ((initTable.nextID + i + 1) % u64Mod))).length = u64Mod + 1 := by
    simp
  have hW : 1 < u64Mod := by unfold u64Mod; norm_num
  have h := hpw 0 u64Mod (by omega) (by omega) (by omega)
  apply h
  simp only [List.getElem_map, List.getElem_range]
  show hId ((initTable.nextID + 0 + 1) % u64Mod)
      = hId ((initTable.nextID + u64Mod + 1) % u64Mod)
  have h1 : (initTable.nextID + 0 + 1) % u64Mod = 1 := by
    show (0 + 0 + 1) % u64Mod = 1
    rw [Nat.mod_eq_of_lt (by omega)]
  have h2 : (initTable.nextID + u64Mod + 1) % u64Mod = 1 := by
    show (0 + u64Mod + 1) % u64Mod = 1
    rw [Nat.zero_add, Nat.add_mod_left, Nat.mod_eq_of_lt (by omega)]
  rw [h1, h2]

/-- C10, amended for the `uint64` wraparound. `Open` returns
`"h" ++ ((counter + 1) mod 2^64)`; while the process has performed fewer
than `2^64` successful opens the returned ids are pairwise distinct, a
fresh open never overwrites a stored entry, a well-formed table stays
well-formed, and a stored entry is either preserved exactly or removed by
any later operation. -/
theorem handle_id_freshness :
    (∀ (cwd : String) (t : HandleTable) (path capID : String),
      (tableOpen cwd t path capID).1 = hId ((t.nextID + 1) % u64Mod)) ∧
    (∀ (cwd : String) (ops : List TableOp), opensCount ops < u64Mod →
      ((runTable cwd initTable ops).1).Pairwise (fun a b => a ≠ b)) ∧
    (∀ (cwd : String) (t : HandleTable), TableInv t → t.nextID + 1 < u64Mod →
      ∀ (path capID : String),
      alookup t.handles (tableOpen cwd t path capID).1 = none) ∧
    (∀ (cwd : String) (ops : List TableOp), opensCount ops < u64Mod →
      TableInv (runTable cwd initTable ops).2) ∧
    (∀ (cwd : String) (t : HandleTable) (op : TableOp) (h : String)
        (e : HandleEntry), TableInv t → t.nextID + 1 < u64Mod →
      alookup t.handles h = some e →
      alookup (execTable cwd t op).2.handles h = some e ∨
      alookup (execTable cwd t op).2.handles h = none) :=
  ⟨fun _ _ _ _ => rfl,
   fun cwd ops hw => runTable_pairwise cwd ops initTable
     (by rw [show initTable.nextID = 0 from rfl, Nat.zero_add]; exact hw),
   fun cwd t hInv hw path capID => tableOpen_fresh hInv hw path capID,
   fun cwd ops hw => runTable_inv cwd ops initTable tableInv_init
     (by rw [show initTable.nextID = 0 from rfl, Nat.zero_add]; exact hw),
   fun cwd t op h e hInv hw he => execTable_stable op hInv hw he⟩

/-- Witness for the amended C10 at concrete inputs. -/
theorem handle_id_freshness_witness :
    ((runTable "/" initTable
        [TableOp.topen true "/a" "c1", TableOp.topen true "/b" "c2"]).1.Pairwise
          (fun a b => a ≠ b)) ∧
    alookup stW.table.handles (tableOpen "/" stW.table "/tmp/y" "cap1").1 = none ∧
    (alookup (execTable "/" stW.table (TableOp.trevoke "cap9")).2.handles "h1"
        = some ⟨"cap1", "/tmp/x"⟩ ∨
      alookup (execTable "/" stW.table (TableOp.trevoke "cap9")).2.handles "h1"
        = none) :=
  have hInv : TableInv stW.table := by
    intro h e he
    simp only [stW, alookup] at he
    by_cases hh : "h1" = h
    · exact ⟨1, le_rfl, hh.symm.trans (by decide)⟩
    · rw [if_neg hh] at he
      simp [alookup] at he
  have hw : stW.table.nextID + 1 < u64Mod := by
    show 1 + 1 < 2 ^ 64
    norm_num
  ⟨handle_id_freshness.2.1 "/"
     [TableOp.topen true "/a" "c1", TableOp.topen true "/b" "c2"]
     (by show opensCount _ < 2 ^ 64; simp [opensCount]),
   handle_id_freshness.2.2.1 "/" stW.table hInv hw "/tmp/y" "cap1",
   handle_id_freshness.2.2.2.2 "/" stW.table (TableOp.trevoke "cap9") "h1"
     ⟨"cap1", "/tmp/x"⟩ hInv hw (by decide)⟩

end Strata
